import Mathlib

/-!
Shallow embedding of the wavetable synthesis core of `src/main.py`
(keyboard-synth).  Floating-point samples are modelled as real numbers
(exact arithmetic); Python-level failures (`IndexError`, `ValueError`,
`AttributeError`, numpy broadcast errors) are modelled by `Option`/`Except`
results, with `none`/`Except.error` marking the raising computation.
-/

noncomputable section

open scoped Classical

/-- Python `int(x)` applied to a float: truncation toward zero. -/
def pyInt (x : ℝ) : ℤ :=
  if 0 ≤ x then ⌊x⌋ else ⌈x⌉

/-- Python float `x % m`: the result has the sign of `m`; for `m ≠ 0` it is
`x - m * ⌊x / m⌋`.  (Python raises `ZeroDivisionError` for `m = 0`; in this
embedding that case never arises because callers guarantee a nonempty table.) -/
def pymod (x m : ℝ) : ℝ :=
  x - m * ⌊x / m⌋

/-- Python/numpy 1-D indexing `values[i]` with an integer index: negative
indices count from the end of the sequence; an index out of the range
`[-len, len)` raises `IndexError`, modelled as `none`. -/
def pyGetElem (values : List ℝ) (i : ℤ) : Option ℝ :=
  if 0 ≤ i then values.get? i.toNat
  else if 0 ≤ (values.length : ℤ) + i then values.get? ((values.length : ℤ) + i).toNat
  else none

/-- `np.linspace(a, b, num)`: `num` evenly spaced points from `a` to `b`
inclusive (step `(b - a) / (num - 1)`); `num = 1` gives `[a]`, `num = 0`
gives the empty array. -/
def linspace (a b : ℝ) (num : ℕ) : List ℝ :=
  if num = 0 then []
  else if num = 1 then [a]
  else (List.range num).map (fun i : ℕ => a + (b - a) * (i : ℝ) / ((num : ℝ) - 1))

/-- `np.max(np.abs(l))` for the (nonempty) lists this program feeds it.
The fold starts at `0`, which agrees with the true maximum because every
`|x|` is nonnegative; the source raises `ValueError` on an empty array and
`dewa_generate_wavetable` models that case separately. -/
def npMaxAbs (l : List ℝ) : ℝ :=
  l.foldr (fun x acc => max |x| acc) 0

/-- `LinearInterpolator.__call__` (src/main.py lines 26-32):
`low = int(index)`, `high = int(np.ceil(index))`; an integral index returns
`values[low]` directly, otherwise the two neighbouring samples are blended,
the upper one looked up at `high % len(values)`.  Out-of-range lookups
raise `IndexError` (`none`). -/
def LinearInterpolator (values : List ℝ) (index : ℝ) : Option ℝ :=
  let low : ℤ := pyInt index
  let high : ℤ := ⌈index⌉
  if low = high then pyGetElem values low
  else
    match pyGetElem values (high % (values.length : ℤ)), pyGetElem values low with
    | some vh, some vl => some ((index - (low : ℝ)) * vh + ((high : ℝ) - index) * vl)
    | _, _ => none

/-- State of `WavetableOscillator` (src/main.py lines 34-56).  The
`interpolator` field is the callable stored by `__init__`;
`wavetable_increment` is `none` until the first assignment to the
`frequency` property, because `__init__` never sets that attribute. -/
structure WavetableOscillator where
  wavetable : List ℝ
  sampling_rate : ℝ
  interpolator : List ℝ → ℝ → Option ℝ
  wavetable_index : ℝ
  frequency : ℝ
  wavetable_increment : Option ℝ

/-- `WavetableOscillator.__init__`: stores the table, rate and interpolator,
sets `wavetable_index = 0.0` and `__frequency = 0`; `wavetable_increment`
is left unset. -/
def WavetableOscillator.init (wavetable : List ℝ) (sampling_rate : ℝ)
    (interpolator : List ℝ → ℝ → Option ℝ) : WavetableOscillator :=
  ⟨wavetable, sampling_rate, interpolator, 0, 0, none⟩

/-- The `frequency` property setter (src/main.py lines 51-56): stores the
value, recomputes `wavetable_increment = len(wavetable) * frequency /
sampling_rate`, and resets `wavetable_index` to `0.0` when the new
frequency is `≤ 0`. -/
def set_frequency (o : WavetableOscillator) (value : ℝ) : WavetableOscillator :=
  let o1 : WavetableOscillator :=
    { o with
      frequency := value
      wavetable_increment := some ((o.wavetable.length : ℝ) * value / o.sampling_rate) }
  if value ≤ 0 then { o1 with wavetable_index := 0 } else o1

/-- `WavetableOscillator.get_sample` (src/main.py lines 42-45): reads the
interpolated sample at the current index, then advances the index by the
increment modulo the table length.  `none` models the `IndexError` from the
interpolator or the `AttributeError` when `wavetable_increment` was never
assigned. -/
def get_sample (o : WavetableOscillator) : Option (ℝ × WavetableOscillator) :=
  match o.interpolator o.wavetable o.wavetable_index with
  | none => none
  | some sample =>
    match o.wavetable_increment with
    | none => none
    | some inc =>
      some (sample,
        { o with
          wavetable_index := pymod (o.wavetable_index + inc) (o.wavetable.length : ℝ) })

/-- Iterated `get_sample`, discarding the returned samples: the oscillator
state after `N` consecutive `next_sample` calls. -/
def stepN : ℕ → WavetableOscillator → Option WavetableOscillator
  | 0, o => some o
  | Nat.succ k, o =>
    match get_sample o with
    | none => none
    | some so => stepN k so.2

/-- The oscillator phase-index invariant: `0 ≤ wavetable_index < len(wavetable)`. -/
def OscInv (o : WavetableOscillator) : Prop :=
  0 ≤ o.wavetable_index ∧ o.wavetable_index < (o.wavetable.length : ℝ)

/-- A well-formed oscillator as built by the program: its stored callable is
the linear interpolator and its phase index satisfies the invariant. -/
def OscOK (o : WavetableOscillator) : Prop :=
  o.interpolator = LinearInterpolator ∧ OscInv o

/-- `fade_in_out` (src/main.py lines 77-81): `fade_length` is clamped to
`len(signal) // 2`, an envelope `(1 - cos(linspace(0, pi, fade_length))) * 0.5`
is built, and the final `fade_length` samples are multiplied by it in place
(the envelope is applied exactly as generated, rising from `0` at the start
of the window to `1` at the buffer's last sample).  When the clamped length
is `0` and the signal is nonempty, `signal[-0:]` is the whole signal and the
in-place multiply by the empty envelope raises a numpy broadcast error
(`none`). -/
def fade_in_out (signal : List ℝ) (fade_length : ℕ) : Option (List ℝ) :=
  let fl := min fade_length (signal.length / 2)
  let env := (linspace 0 Real.pi fl).map (fun x => (1 - Real.cos x) * 0.5)
  if fl = 0 then
    if signal.length = 0 then some [] else none
  else
    some (signal.take (signal.length - fl) ++
      List.zipWith (fun a b => a * b) (signal.drop (signal.length - fl)) env)

/-- State of `Voice` (src/main.py lines 58-62): sampling rate, gain in dB,
and the oscillator bank. -/
structure Voice where
  sampling_rate : ℝ
  gain : ℝ
  oscillators : List WavetableOscillator

/-- The inner loop body of `Voice.synthesize` for one output sample: each
oscillator in order gets its frequency assigned and contributes one
`get_sample()` to the accumulating sum; any exception aborts the whole
call (`none`). -/
def voiceSampleStep (f : ℝ) : List WavetableOscillator → Option (ℝ × List WavetableOscillator)
  | [] => some (0, [])
  | o :: rest =>
    match get_sample (set_frequency o f) with
    | none => none
    | some so =>
      match voiceSampleStep f rest with
      | none => none
      | some ar => some (so.1 + ar.1, so.2 :: ar.2)

/-- The outer loop of `Voice.synthesize`: `n` output samples in increasing
index order, threading the mutated oscillator states. -/
def voiceLoop (f : ℝ) : ℕ → List WavetableOscillator → Option (List ℝ × List WavetableOscillator)
  | 0, oscs => some ([], oscs)
  | Nat.succ n, oscs =>
    match voiceSampleStep f oscs with
    | none => none
    | some sos =>
      match voiceLoop f n sos.2 with
      | none => none
      | some ros => some (sos.1 :: ros.1, ros.2)

/-- `Voice.synthesize` (src/main.py lines 64-75) for a scalar frequency (the
`np.isscalar` branch broadcasts it to a constant per-sample sequence, so a
constant `f` is used at every index): the buffer has `int(duration_seconds *
sampling_rate)` slots (`np.zeros` raises `ValueError` when that integer is
negative, modelled as `none`), each slot sums one sample from every
oscillator, the buffer is scaled by `10 ** (gain / 20)` and finally passed
through `fade_in_out`.  The in-place mutation of the oscillator bank is not
returned, as no claim observes a later call. -/
def Voice.synthesize (v : Voice) (frequency : ℝ) (duration_seconds : ℝ) : Option (List ℝ) :=
  let n : ℤ := pyInt (duration_seconds * v.sampling_rate)
  if n < 0 then none
  else
    match voiceLoop frequency n.toNat v.oscillators with
    | none => none
    | some bos =>
      let amplitude : ℝ := (10 : ℝ) ^ (v.gain / 20)
      fade_in_out (bos.1.map (fun x => x * amplitude)) 1000

/-- The generator expressions `dewa_generate_wavetable` can hand to the
external `dewa` block: `Sine(p)`, `Square(p)`, `Sawtooth(p, 0.5)` (the
"triangle" case) or `Sawtooth(p)` with the library's default duty. -/
inductive DewaGen
  | sine (period : ℝ)
  | square (period : ℝ)
  | sawtoothDuty (period : ℝ) (duty : ℝ)
  | sawtoothDefault (period : ℝ)

/-- `dewa_generate_wavetable` (src/main.py lines 8-23).  The `dewa`
block-composition library is an external dependency, so the raw samples of
`Block(duration=length) += <generator>` are supplied by the `blockSamples`
argument.  The function dispatches on the waveform name (raising
`ValueError` for an unknown one), truncates the block output to `length`
samples, and divides by the peak `np.max(np.abs(wavetable))`.  A zero peak
(possible only when every truncated sample is `0`) makes that division the
IEEE `0.0 / 0.0`, so numpy returns a NaN-filled array with only a runtime
warning: modelled as `Except.ok none`.  `np.max` of an empty array raises
`ValueError`.  The final `astype(np.float32)` rounding is not modelled. -/
def dewa_generate_wavetable (blockSamples : DewaGen → List ℝ) (length : ℕ)
    (waveform : String) (frequency sample_rate : ℝ) : Except String (Option (List ℝ)) :=
  let genChoice : Except String DewaGen :=
    if waveform = "sine" then Except.ok (DewaGen.sine (sample_rate / frequency))
    else if waveform = "triangle" then Except.ok (DewaGen.sawtoothDuty (sample_rate / frequency) 0.5)
    else if waveform = "square" then Except.ok (DewaGen.square (sample_rate / frequency))
    else if waveform = "sawtooth" then Except.ok (DewaGen.sawtoothDefault (sample_rate / frequency))
    else Except.error ("Unknown waveform type: " ++ waveform)
  match genChoice with
  | Except.error e => Except.error e
  | Except.ok g =>
    let wavetable := (blockSamples g).take length
    if wavetable.isEmpty then
      Except.error "zero-size array to reduction operation maximum"
    else
      let peak := npMaxAbs wavetable
      if peak = 0 then Except.ok none
      else Except.ok (some (wavetable.map (fun x => x / peak)))

theorem pymod_eq_fract {m : ℝ} (hm : m ≠ 0) (x : ℝ) :
    pymod x m = m * Int.fract (x / m) := by
  unfold pymod
  rw [Int.fract]
  field_simp

theorem pymod_nonneg {m : ℝ} (hm : 0 < m) (x : ℝ) : 0 ≤ pymod x m := by
  rw [pymod_eq_fract hm.ne']
  exact mul_nonneg hm.le (Int.fract_nonneg _)

theorem pymod_lt {m : ℝ} (hm : 0 < m) (x : ℝ) : pymod x m < m := by
  rw [pymod_eq_fract hm.ne']
  calc m * Int.fract (x / m) < m * 1 :=
        (mul_lt_mul_left hm).mpr (Int.fract_lt_one _)
    _ = m := mul_one m

theorem pymod_eq_self {x m : ℝ} (h0 : 0 ≤ x) (h1 : x < m) : pymod x m = x := by
  have hm : 0 < m := lt_of_le_of_lt h0 h1
  have : ⌊x / m⌋ = 0 := by
    rw [Int.floor_eq_zero_iff]
    constructor
    · exact div_nonneg h0 hm.le
    · exact (div_lt_one hm).mpr h1
  unfold pymod
  rw [this]
  simp

theorem pymod_sub_int_mul {m : ℝ} (hm : m ≠ 0) (x : ℝ) (k : ℤ) :
    pymod (x - m * k) m = pymod x m := by
  unfold pymod
  have hdiv : (x - m * k) / m = x / m - k := by
    field_simp
  rw [hdiv, Int.floor_sub_int]
  push_cast
  ring

theorem pymod_add_pymod {m : ℝ} (hm : m ≠ 0) (a b : ℝ) :
    pymod (pymod a m + b) m = pymod (a + b) m := by
  have h1 : pymod a m + b = (a + b) - m * (⌊a / m⌋ : ℤ) := by
    unfold pymod
    ring
  rw [h1, pymod_sub_int_mul hm]

theorem pyInt_of_nonneg {x : ℝ} (h : 0 ≤ x) : pyInt x = ⌊x⌋ := if_pos h

theorem pyInt_intCast (k : ℤ) : pyInt (k : ℝ) = k := by
  unfold pyInt
  split <;> simp

theorem pyInt_nonpos {x : ℝ} (h : x ≤ 0) : pyInt x ≤ 0 := by
  unfold pyInt
  split
  · have hx : x = 0 := le_antisymm h (by assumption)
    simp [hx]
  · exact Int.ceil_le.mpr (by exact_mod_cast h)

theorem linspace_length (a b : ℝ) (num : ℕ) : (linspace a b num).length = num := by
  unfold linspace
  split
  · simp [*]
  · split
    · simp [*]
    · simp

theorem linspace_get? (a b : ℝ) {num i : ℕ} (h2 : 2 ≤ num) (hi : i < num) :
    (linspace a b num).get? i = some (a + (b - a) * i / ((num : ℝ) - 1)) := by
  unfold linspace
  rw [if_neg (by omega), if_neg (by omega)]
  rw [List.get?_map, List.get?_range hi]
  rfl

theorem pyGetElem_of_nonneg {i : ℤ} (values : List ℝ) (h : 0 ≤ i) :
    pyGetElem values i = values.get? i.toNat := if_pos h

theorem pyGetElem_isSome {values : List ℝ} {i : ℤ} (h0 : 0 ≤ i)
    (h1 : i < (values.length : ℤ)) :
    ∃ r, pyGetElem values i = some r ∧ r ∈ values := by
  have hlt : i.toNat < values.length := by omega
  refine ⟨values.get ⟨i.toNat, hlt⟩, ?_, List.get_mem _ _ _⟩
  rw [pyGetElem_of_nonneg values h0, List.get?_eq_get hlt]

theorem LinearInterpolator_some {values : List ℝ} {i : ℝ} (h0 : 0 ≤ i)
    (h1 : i < (values.length : ℝ)) :
    ∃ r, LinearInterpolator values i = some r ∧
      ((∀ y ∈ values, |y| ≤ 1) → |r| ≤ 1) := by
  have hlen : 0 < (values.length : ℤ) := by
    by_contra hc
    push_neg at hc
    have hc2 : (values.length : ℝ) ≤ 0 := by exact_mod_cast hc
    linarith
  have hfl0 : (0 : ℤ) ≤ ⌊i⌋ := Int.floor_nonneg.mpr h0
  have hfl1 : ⌊i⌋ < (values.length : ℤ) := by
    rw [Int.floor_lt]
    exact_mod_cast h1
  simp only [LinearInterpolator]
  rw [pyInt_of_nonneg h0]
  by_cases hc : ⌊i⌋ = ⌈i⌉
  · rw [if_pos hc]
    obtain ⟨r, hr, hmem⟩ := pyGetElem_isSome hfl0 hfl1
    exact ⟨r, hr, fun hb => hb r hmem⟩
  · rw [if_neg hc]
    obtain ⟨vh, hvh, hmemh⟩ := pyGetElem_isSome (i := ⌈i⌉ % (values.length : ℤ))
      (Int.emod_nonneg _ (by omega)) (Int.emod_lt_of_pos _ hlen)
    obtain ⟨vl, hvl, hmeml⟩ := pyGetElem_isSome hfl0 hfl1
    rw [hvh, hvl]
    refine ⟨(i - ((⌊i⌋ : ℤ) : ℝ)) * vh + (((⌈i⌉ : ℤ) : ℝ) - i) * vl, rfl, ?_⟩
    intro hb
    have hceil : ⌈i⌉ = ⌊i⌋ + 1 := by
      have u := Int.ceil_le_floor_add_one i
      have v := Int.floor_le_ceil i
      omega
    have w1a : 0 ≤ i - ((⌊i⌋ : ℤ) : ℝ) := by
      have := Int.floor_le i
      linarith
    have w2a : 0 ≤ ((⌈i⌉ : ℤ) : ℝ) - i := by
      have := Int.le_ceil i
      linarith
    have wsum : (i - ((⌊i⌋ : ℤ) : ℝ)) + (((⌈i⌉ : ℤ) : ℝ) - i) = 1 := by
      rw [hceil]
      push_cast
      ring
    have hbh := hb vh hmemh
    have hbl := hb vl hmeml
    calc |(i - ((⌊i⌋ : ℤ) : ℝ)) * vh + (((⌈i⌉ : ℤ) : ℝ) - i) * vl|
        ≤ |(i - ((⌊i⌋ : ℤ) : ℝ)) * vh| + |(((⌈i⌉ : ℤ) : ℝ) - i) * vl| := abs_add _ _
      _ = (i - ((⌊i⌋ : ℤ) : ℝ)) * |vh| + (((⌈i⌉ : ℤ) : ℝ) - i) * |vl| := by
          rw [abs_mul, abs_mul, abs_of_nonneg w1a, abs_of_nonneg w2a]
      _ ≤ (i - ((⌊i⌋ : ℤ) : ℝ)) * 1 + (((⌈i⌉ : ℤ) : ℝ) - i) * 1 := by
          have g1 : (i - ((⌊i⌋ : ℤ) : ℝ)) * |vh| ≤ (i - ((⌊i⌋ : ℤ) : ℝ)) * 1 :=
            mul_le_mul_of_nonneg_left hbh w1a
          have g2 : (((⌈i⌉ : ℤ) : ℝ) - i) * |vl| ≤ (((⌈i⌉ : ℤ) : ℝ) - i) * 1 :=
            mul_le_mul_of_nonneg_left hbl w2a
          linarith
      _ = 1 := by
          rw [mul_one, mul_one, wsum]

theorem set_frequency_wavetable (o : WavetableOscillator) (value : ℝ) :
    (set_frequency o value).wavetable = o.wavetable := by
  unfold set_frequency
  split <;> rfl

theorem set_frequency_sampling_rate (o : WavetableOscillator) (value : ℝ) :
    (set_frequency o value).sampling_rate = o.sampling_rate := by
  unfold set_frequency
  split <;> rfl

theorem set_frequency_interpolator (o : WavetableOscillator) (value : ℝ) :
    (set_frequency o value).interpolator = o.interpolator := by
  unfold set_frequency
  split <;> rfl

theorem set_frequency_frequency (o : WavetableOscillator) (value : ℝ) :
    (set_frequency o value).frequency = value := by
  unfold set_frequency
  split <;> rfl

theorem set_frequency_increment (o : WavetableOscillator) (value : ℝ) :
    (set_frequency o value).wavetable_increment =
      some ((o.wavetable.length : ℝ) * value / o.sampling_rate) := by
  unfold set_frequency
  split <;> rfl

theorem set_frequency_index_of_nonpos (o : WavetableOscillator) {value : ℝ}
    (h : value ≤ 0) : (set_frequency o value).wavetable_index = 0 := by
  unfold set_frequency
  rw [if_pos h]

theorem set_frequency_index_of_pos (o : WavetableOscillator) {value : ℝ}
    (h : 0 < value) : (set_frequency o value).wavetable_index = o.wavetable_index := by
  unfold set_frequency
  rw [if_neg (not_le.mpr h)]

theorem set_frequency_OscOK {o : WavetableOscillator} (h : OscOK o) (value : ℝ) :
    OscOK (set_frequency o value) := by
  obtain ⟨hi, h0, h1⟩ := h
  have hlen : (0 : ℝ) < o.wavetable.length := lt_of_le_of_lt h0 h1
  refine ⟨by rw [set_frequency_interpolator, hi], ?_⟩
  unfold OscInv
  rw [set_frequency_wavetable]
  rcases le_or_lt value 0 with hv | hv
  · rw [set_frequency_index_of_nonpos o hv]
    exact ⟨le_refl 0, hlen⟩
  · rw [set_frequency_index_of_pos o hv]
    exact ⟨h0, h1⟩

theorem get_sample_ok {o : WavetableOscillator} (hOK : OscOK o) {inc : ℝ}
    (hinc : o.wavetable_increment = some inc) :
    ∃ s o2, get_sample o = some (s, o2) ∧ OscOK o2 ∧
      o2.wavetable = o.wavetable ∧
      o2.wavetable_increment = o.wavetable_increment ∧
      o2.wavetable_index = pymod (o.wavetable_index + inc) (o.wavetable.length : ℝ) ∧
      ((∀ y ∈ o.wavetable, |y| ≤ 1) → |s| ≤ 1) := by
  obtain ⟨hi, h0, h1⟩ := hOK
  have hlen : (0 : ℝ) < o.wavetable.length := lt_of_le_of_lt h0 h1
  obtain ⟨s, hs, hbound⟩ := LinearInterpolator_some h0 h1
  have hs2 : o.interpolator o.wavetable o.wavetable_index = some s := by
    rw [hi]
    exact hs
  refine ⟨s,
    { o with wavetable_index := pymod (o.wavetable_index + inc) (o.wavetable.length : ℝ) },
    ?_, ?_, rfl, rfl, rfl, hbound⟩
  · unfold get_sample
    rw [hs2, hinc]
  · exact ⟨hi, pymod_nonneg hlen _, pymod_lt hlen _⟩

theorem stepN_spec (k : ℕ) (o : WavetableOscillator) (inc : ℝ)
    (hOK : OscOK o) (hinc : o.wavetable_increment = some inc) :
    ∃ oN, stepN k o = some oN ∧
      oN.wavetable_index =
        pymod (o.wavetable_index + k * inc) (o.wavetable.length : ℝ) := by
  induction k generalizing o with
  | zero =>
    refine ⟨o, rfl, ?_⟩
    obtain ⟨hi, h0, h1⟩ := hOK
    rw [Nat.cast_zero, zero_mul, add_zero, pymod_eq_self h0 h1]
  | succ k ih =>
    obtain ⟨hi, h0, h1⟩ := hOK
    have hlen : (0 : ℝ) < o.wavetable.length := lt_of_le_of_lt h0 h1
    obtain ⟨s, o2, hgs, hOK2, hw2, hinc2, hidx2, _⟩ := get_sample_ok ⟨hi, h0, h1⟩ hinc
    obtain ⟨oN, hsN, hidxN⟩ := ih o2 hOK2 (by rw [hinc2, hinc])
    refine ⟨oN, ?_, ?_⟩
    · unfold stepN
      rw [hgs]
      exact hsN
    · rw [hidxN, hidx2, hw2, pymod_add_pymod hlen.ne']
      push_cast
      ring_nf

theorem voiceSampleStep_spec (f : ℝ) :
    ∀ oscs : List WavetableOscillator, (∀ o ∈ oscs, OscOK o) →
    ∃ s oscs2, voiceSampleStep f oscs = some (s, oscs2) ∧
      (∀ o ∈ oscs2, OscOK o) ∧ oscs2.length = oscs.length ∧
      ((∀ o ∈ oscs, ∀ y ∈ o.wavetable, |y| ≤ 1) →
        (∀ o ∈ oscs2, ∀ y ∈ o.wavetable, |y| ≤ 1) ∧ |s| ≤ (oscs.length : ℝ)) := by
  intro oscs
  induction oscs with
  | nil =>
    intro _
    exact ⟨0, [], rfl, by simp, rfl, fun _ => ⟨by simp, by simp⟩⟩
  | cons o rest ih =>
    intro hOK
    have hOKo : OscOK o := hOK o (List.mem_cons_self o rest)
    have hOKrest : ∀ x ∈ rest, OscOK x := fun x hx => hOK x (List.mem_cons_of_mem o hx)
    have hOK1 : OscOK (set_frequency o f) := set_frequency_OscOK hOKo f
    obtain ⟨s, o2, hgs, hOK2, hw2, _, _, hsb⟩ :=
      get_sample_ok hOK1 (set_frequency_increment o f)
    obtain ⟨sr, rest2, hstep, hOKr2, hlenr2, hbr2⟩ := ih hOKrest
    refine ⟨s + sr, o2 :: rest2, ?_, ?_, ?_, ?_⟩
    · unfold voiceSampleStep
      rw [hgs, hstep]
    · intro x hx
      rcases List.mem_cons.mp hx with h | h
      · rw [h]
        exact hOK2
      · exact hOKr2 x h
    · simp [hlenr2]
    · intro hb
      have hbo : ∀ y ∈ o.wavetable, |y| ≤ 1 := hb o (List.mem_cons_self o rest)
      have hbrest : ∀ x ∈ rest, ∀ y ∈ x.wavetable, |y| ≤ 1 :=
        fun x hx => hb x (List.mem_cons_of_mem o hx)
      obtain ⟨hbr2c, hsrb⟩ := hbr2 hbrest
      have hsbound : |s| ≤ 1 := by
        apply hsb
        rw [set_frequency_wavetable]
        exact hbo
      constructor
      · intro x hx
        rcases List.mem_cons.mp hx with h | h
        · rw [h, hw2, set_frequency_wavetable]
          exact hbo
        · exact hbr2c x h
      · calc |s + sr| ≤ |s| + |sr| := abs_add _ _
          _ ≤ 1 + (rest.length : ℝ) := add_le_add hsbound hsrb
          _ = ((o :: rest).length : ℝ) := by
              simp
              ring

theorem voiceLoop_spec (f : ℝ) (n : ℕ) :
    ∀ oscs : List WavetableOscillator, (∀ o ∈ oscs, OscOK o) →
    ∃ buf oscs2, voiceLoop f n oscs = some (buf, oscs2) ∧
      buf.length = n ∧
      ((∀ o ∈ oscs, ∀ y ∈ o.wavetable, |y| ≤ 1) →
        ∀ x ∈ buf, |x| ≤ (oscs.length : ℝ)) := by
  induction n with
  | zero =>
    intro oscs _
    exact ⟨[], oscs, rfl, rfl, by simp⟩
  | succ n ih =>
    intro oscs hOK
    obtain ⟨s, oscs1, hstep, hOK1, hlen1, hbnd1⟩ := voiceSampleStep_spec f oscs hOK
    obtain ⟨buf, oscs2, hloop, hlenb, hbndb⟩ := ih oscs1 hOK1
    refine ⟨s :: buf, oscs2, ?_, by simp [hlenb], ?_⟩
    · unfold voiceLoop
      rw [hstep]
      show (match voiceLoop f n oscs1 with
        | none => none
        | some ros => some (s :: ros.1, ros.2)) = some (s :: buf, oscs2)
      rw [hloop]
    · intro hb x hx
      obtain ⟨hb1, hsb⟩ := hbnd1 hb
      rcases List.mem_cons.mp hx with h | h
      · rw [h]
        exact hsb
      · have := hbndb hb1 x h
        rw [hlen1] at this
        exact this

theorem fadeEnv_mem (n : ℕ) :
    ∀ y ∈ (linspace 0 Real.pi n).map (fun x => (1 - Real.cos x) * 0.5),
      0 ≤ y ∧ y ≤ 1 := by
  intro y hy
  simp only [List.mem_map] at hy
  obtain ⟨x, _, rfl⟩ := hy
  have h1 := Real.neg_one_le_cos x
  have h2 := Real.cos_le_one x
  constructor <;> nlinarith

theorem zipWith_mul_bound {c : ℝ} :
    ∀ (l e : List ℝ), (∀ y ∈ l, |y| ≤ c) → (∀ y ∈ e, 0 ≤ y ∧ y ≤ 1) →
      ∀ x ∈ List.zipWith (fun a b => a * b) l e, |x| ≤ c := by
  intro l
  induction l with
  | nil =>
    intro e _ _ x hx
    simp at hx
  | cons a l ih =>
    intro e hl he x hx
    cases e with
    | nil => simp at hx
    | cons b e =>
      rcases List.mem_cons.mp hx with h | h
      · have hab := hl a (List.mem_cons_self a l)
        have hbb := he b (List.mem_cons_self b e)
        rw [h, abs_mul]
        have h0 : |a| * |b| ≤ |a| * 1 :=
          mul_le_mul_of_nonneg_left (by rw [abs_of_nonneg hbb.1]; exact hbb.2) (abs_nonneg a)
        have h1 : (0:ℝ) ≤ |a| := abs_nonneg a
        calc |a| * |b| ≤ |a| * 1 := h0
          _ = |a| := mul_one _
          _ ≤ c := hab
      · exact ih e (fun y hy => hl y (List.mem_cons_of_mem a hy))
          (fun y hy => he y (List.mem_cons_of_mem b hy)) x h

theorem fade_in_out_spec (signal : List ℝ) (hne : signal.length ≠ 1) :
    ∃ out, fade_in_out signal 1000 = some out ∧ out.length = signal.length ∧
      ∀ c : ℝ, (∀ y ∈ signal, |y| ≤ c) → ∀ x ∈ out, |x| ≤ c := by
  rcases Nat.eq_zero_or_pos signal.length with h0 | hpos
  · refine ⟨[], ?_, by simp [h0], by simp⟩
    unfold fade_in_out
    rw [if_pos (by simp [h0]), if_pos h0]
  · have h2 : 2 ≤ signal.length := by omega
    have hfl1 : 1 ≤ min 1000 (signal.length / 2) := by
      have : 1 ≤ signal.length / 2 := by omega
      omega
    have hfl2 : min 1000 (signal.length / 2) ≤ signal.length := by
      have : signal.length / 2 ≤ signal.length := Nat.div_le_self _ _
      omega
    refine ⟨signal.take (signal.length - min 1000 (signal.length / 2)) ++
      List.zipWith (fun a b => a * b)
        (signal.drop (signal.length - min 1000 (signal.length / 2)))
        ((linspace 0 Real.pi (min 1000 (signal.length / 2))).map
          (fun x => (1 - Real.cos x) * 0.5)), ?_, ?_, ?_⟩
    · unfold fade_in_out
      rw [if_neg (by omega)]
    · rw [List.length_append, List.length_take, List.length_zipWith, List.length_drop,
        List.length_map, linspace_length]
      omega
    · intro c hc x hx
      rcases List.mem_append.mp hx with h | h
      · exact hc x (List.take_subset _ _ h)
      · exact zipWith_mul_bound _ _
          (fun y hy => hc y (List.drop_subset _ _ hy)) (fadeEnv_mem _) x h

theorem npMaxAbs_nonneg (l : List ℝ) : 0 ≤ npMaxAbs l := by
  induction l with
  | nil => simp [npMaxAbs]
  | cons a l ih =>
    simp only [npMaxAbs, List.foldr_cons] at ih ⊢
    exact le_trans ih (le_max_right _ _)

theorem npMaxAbs_eq_zero {l : List ℝ} (h : ∀ x ∈ l, x = 0) : npMaxAbs l = 0 := by
  induction l with
  | nil => simp [npMaxAbs]
  | cons a l ih =>
    have ha : a = 0 := h a (List.mem_cons_self a l)
    have hrest : npMaxAbs l = 0 := ih (fun x hx => h x (List.mem_cons_of_mem a hx))
    simp only [npMaxAbs, List.foldr_cons] at hrest ⊢
    rw [ha, hrest]
    simp

theorem npMaxAbs_map_div {p : ℝ} (hp : 0 < p) (l : List ℝ) :
    npMaxAbs (l.map (fun x => x / p)) = npMaxAbs l / p := by
  induction l with
  | nil => simp [npMaxAbs]
  | cons a l ih =>
    simp only [npMaxAbs, List.map_cons, List.foldr_cons] at ih ⊢
    rw [ih, abs_div, abs_of_pos hp, max_div_div_right hp.le]

theorem npMaxAbs_pos {l : List ℝ} (h : npMaxAbs l ≠ 0) : 0 < npMaxAbs l :=
  lt_of_le_of_ne (npMaxAbs_nonneg l) (Ne.symm h)

/-- C3 counterexample: feeding the generator an all-zero 4-sample block (the
degenerate zero-peak case, e.g. a sine whose frequency equals the sampling
rate in exact arithmetic) makes `dewa_generate_wavetable` return normally
with the NaN-filled table (`Except.ok none`), which is neither an explicit
`DegenerateSignal`-style failure (`Except.error`) nor the substituted silent
table `some [0, 0, 0, 0]`. -/
theorem generate_zero_table_divides :
    dewa_generate_wavetable (fun _ : DewaGen => [(0:ℝ), 0, 0, 0]) 4 "sine" 441 441 =
      Except.ok none ∧
    (Except.ok (none : Option (List ℝ)) : Except String (Option (List ℝ))) ≠
      Except.ok (some [(0:ℝ), 0, 0, 0]) := by
  constructor
  · simp [dewa_generate_wavetable, npMaxAbs]
  · simp

/-- C3, amended: if wavetable generation produces an all-zero (nonempty)
table, `dewa_generate_wavetable` performs the division by the zero peak:
numpy produces a NaN-filled array (modelled `Except.ok none`); no
`DegenerateSignal` condition is raised and no silent table is substituted. -/
theorem generate_zero_table_nan (bs : DewaGen → List ℝ) (n : ℕ) (wf : String) (f sr : ℝ)
    (hwf : wf = "sine" ∨ wf = "triangle" ∨ wf = "square" ∨ wf = "sawtooth")
    (hne : ∀ g : DewaGen, (bs g).take n ≠ [])
    (hz : ∀ g : DewaGen, ∀ x ∈ (bs g).take n, x = 0) :
    dewa_generate_wavetable bs n wf f sr = Except.ok none := by
  have hfalse : ∀ g : DewaGen, ((bs g).take n).isEmpty = false := by
    intro g
    cases hcl : (bs g).take n with
    | nil => exact absurd hcl (hne g)
    | cons a l => rfl
  have hzero : ∀ g : DewaGen, npMaxAbs ((bs g).take n) = 0 :=
    fun g => npMaxAbs_eq_zero (hz g)
  rcases hwf with rfl | rfl | rfl | rfl <;>
    simp [dewa_generate_wavetable, hfalse, hzero]

/-- Witness for the amended C3 theorem: a concrete all-zero 2-sample block
through the "triangle" branch yields the NaN table. -/
theorem generate_zero_table_nan_witness :
    dewa_generate_wavetable (fun _ : DewaGen => [(0:ℝ), 0]) 2 "triangle" 1 1 =
      Except.ok none :=
  generate_zero_table_nan (fun _ : DewaGen => [(0:ℝ), 0]) 2 "triangle" 1 1
    (Or.inr (Or.inl rfl)) (fun g => by simp) (fun g => by simp)

/-- C8 counterexample: in the all-silent degenerate case (all-zero 3-sample
block, "square" waveform) `dewa_generate_wavetable` does not fail
explicitly: it returns normally with the NaN-filled table (`Except.ok
none`), which is also not a table of 3 samples with peak 1. -/
theorem generate_degenerate_no_failure :
    dewa_generate_wavetable (fun _ : DewaGen => [(0:ℝ), 0, 0]) 3 "square" 2 2 =
      Except.ok none ∧
    (Except.ok (none : Option (List ℝ)) : Except String (Option (List ℝ))) ≠
      Except.ok (some [(0:ℝ), 0, 0]) := by
  constructor
  · simp [dewa_generate_wavetable, npMaxAbs]
  · simp

/-- C8, amended: for every recognized waveform kind, whenever the external
block supplies at least `length` samples (`length > 0`) and the truncated
table has nonzero peak, `dewa_generate_wavetable` returns a table of exactly
`length` samples whose maximum absolute sample is exactly `1`; in the
all-zero degenerate case it instead returns the NaN table without failing
explicitly (see the counterexample). -/
theorem generate_length_normalized (bs : DewaGen → List ℝ) (n : ℕ) (wf : String) (f sr : ℝ)
    (hwf : wf = "sine" ∨ wf = "triangle" ∨ wf = "square" ∨ wf = "sawtooth")
    (hlen : ∀ g : DewaGen, n ≤ (bs g).length)
    (hp : ∀ g : DewaGen, npMaxAbs ((bs g).take n) ≠ 0) :
    (dewa_generate_wavetable bs n wf f sr).map (Option.map List.length) =
      Except.ok (some n) ∧
    (dewa_generate_wavetable bs n wf f sr).map (Option.map npMaxAbs) =
      Except.ok (some 1) := by
  have hfalse : ∀ g : DewaGen, ((bs g).take n).isEmpty = false := by
    intro g
    cases hcl : (bs g).take n with
    | nil =>
      exfalso
      apply hp g
      rw [hcl]
      simp [npMaxAbs]
    | cons a l => rfl
  have hlen2 : ∀ g : DewaGen,
      (((bs g).take n).map (fun x => x / npMaxAbs ((bs g).take n))).length = n := by
    intro g
    rw [List.length_map, List.length_take, Nat.min_eq_left (hlen g)]
  have hmax2 : ∀ g : DewaGen,
      npMaxAbs (((bs g).take n).map (fun x => x / npMaxAbs ((bs g).take n))) = 1 := by
    intro g
    rw [npMaxAbs_map_div (npMaxAbs_pos (hp g)), div_self (hp g)]
  rcases hwf with rfl | rfl | rfl | rfl <;> constructor
  all_goals simp [dewa_generate_wavetable, hfalse, hp, Except.map, hlen]
  all_goals rw [← List.map_take]
  all_goals exact hmax2 _

/-- Witness for the amended C8 theorem: the block `[2, -4, 1]` through the
"sine" branch yields a 3-sample table with peak exactly 1. -/
theorem generate_length_normalized_witness :
    (dewa_generate_wavetable (fun _ : DewaGen => [(2:ℝ), -4, 1]) 3 "sine" 440 44100).map
      (Option.map List.length) = Except.ok (some 3) ∧
    (dewa_generate_wavetable (fun _ : DewaGen => [(2:ℝ), -4, 1]) 3 "sine" 440 44100).map
      (Option.map npMaxAbs) = Except.ok (some 1) :=
  generate_length_normalized (fun _ : DewaGen => [(2:ℝ), -4, 1]) 3 "sine" 440 44100
    (Or.inl rfl) (fun g => by simp)
    (fun g => by simp [npMaxAbs]; norm_num)

/-- C5 counterexample: at the integral index `k = 2` on the two-element
table `[1, 2]` the interpolator raises `IndexError` (`values[2]` is out of
range, `none`), instead of returning `table[2 % 2] = some 1` as the claim
states. -/
theorem interpolator_integral_index_oob :
    LinearInterpolator [(1:ℝ), 2] 2 = none ∧ (none : Option ℝ) ≠ some 1 := by
  constructor
  · have h2 : pyInt (2 : ℝ) = 2 := by
      rw [pyInt_of_nonneg (by norm_num)]
      norm_num
    have hc : ⌈(2 : ℝ)⌉ = 2 := by norm_num
    simp [LinearInterpolator, h2, hc, pyGetElem]
  · simp

/-- C5, amended: for a nonempty table and an integral index `k` in the
Python-indexable range `-len ≤ k < len`, the interpolator returns the table
entry at `k % len` (Python modulo, hence nonnegative); outside that range
the lookup `values[int(k)]` raises `IndexError` (see the counterexample at
`k = len`). -/
theorem interpolator_integral_index_mod (values : List ℝ) (k : ℤ)
    (hlen : 0 < values.length) (hlow : -(values.length : ℤ) ≤ k)
    (hhigh : k < (values.length : ℤ)) :
    LinearInterpolator values (k : ℝ) =
      values.get? ((k % (values.length : ℤ)).toNat) := by
  have hceil : ⌈(k : ℝ)⌉ = k := Int.ceil_intCast k
  simp only [LinearInterpolator, pyInt_intCast, hceil, eq_self_iff_true, if_true]
  rcases le_or_lt 0 k with h0 | h0
  · rw [pyGetElem_of_nonneg values h0, Int.emod_eq_of_lt h0 hhigh]
  · have hk2 : 0 ≤ (values.length : ℤ) + k := by omega
    have hmod : k % (values.length : ℤ) = (values.length : ℤ) + k := by
      have hlt : k + (values.length : ℤ) < (values.length : ℤ) := by omega
      have hge : 0 ≤ k + (values.length : ℤ) := by omega
      calc k % (values.length : ℤ)
          = (k + (values.length : ℤ) * 1) % (values.length : ℤ) :=
            (Int.add_mul_emod_self_left k (values.length : ℤ) 1).symm
        _ = (k + (values.length : ℤ)) % (values.length : ℤ) := by rw [mul_one]
        _ = k + (values.length : ℤ) := Int.emod_eq_of_lt hge hlt
        _ = (values.length : ℤ) + k := add_comm _ _
    rw [hmod]
    unfold pyGetElem
    rw [if_neg (not_le.mpr h0), if_pos hk2]

/-- Witness for the amended C5 theorem: on the table `[3, 7]` the negative
integral index `-1` reads `table[-1 % 2] = table[1] = 7`. -/
theorem interpolator_integral_index_mod_witness :
    0 < [(3:ℝ), 7].length ∧
    LinearInterpolator [(3:ℝ), 7] ((-1 : ℤ) : ℝ) =
      [(3:ℝ), 7].get? (((-1 : ℤ) % (([(3:ℝ), 7].length : ℕ) : ℤ)).toNat) :=
  ⟨by simp,
    interpolator_integral_index_mod [(3:ℝ), 7] (-1) (by simp) (by simp) (by simp)⟩

/-- C6: assigning frequency `f` stores it and sets the increment to
`len(table) * f / sampling_rate`; assigning `g ≤ 0` resets the phase index
to `0`; and after that, with a positive frequency held constant, `N` calls
to `next_sample` leave the phase index at `(N * increment) mod len(table)`
(exact arithmetic). -/
theorem oscillator_frequency_phase (o : WavetableOscillator) (g f : ℝ) (N : ℕ)
    (hi : o.interpolator = LinearInterpolator)
    (hlen : 0 < o.wavetable.length)
    (hsr : 0 < o.sampling_rate)
    (hg : g ≤ 0) (hf : 0 < f) :
    (set_frequency o f).frequency = f ∧
    (set_frequency o f).wavetable_increment =
      some ((o.wavetable.length : ℝ) * f / o.sampling_rate) ∧
    (set_frequency o g).wavetable_index = 0 ∧
    (stepN N (set_frequency (set_frequency o g) f)).map WavetableOscillator.wavetable_index =
      some (pymod ((N : ℝ) * ((o.wavetable.length : ℝ) * f / o.sampling_rate))
        (o.wavetable.length : ℝ)) := by
  refine ⟨set_frequency_frequency o f, set_frequency_increment o f,
    set_frequency_index_of_nonpos o hg, ?_⟩
  have hw1 : (set_frequency o g).wavetable = o.wavetable := set_frequency_wavetable o g
  have hw2 : (set_frequency (set_frequency o g) f).wavetable = o.wavetable := by
    rw [set_frequency_wavetable, hw1]
  have hidx2 : (set_frequency (set_frequency o g) f).wavetable_index = 0 := by
    rw [set_frequency_index_of_pos _ hf, set_frequency_index_of_nonpos o hg]
  have hOK2 : OscOK (set_frequency (set_frequency o g) f) := by
    refine ⟨?_, ?_, ?_⟩
    · rw [set_frequency_interpolator, set_frequency_interpolator, hi]
    · rw [hidx2]
    · rw [hidx2, hw2]
      exact_mod_cast hlen
  have hinc2 : (set_frequency (set_frequency o g) f).wavetable_increment =
      some ((o.wavetable.length : ℝ) * f / o.sampling_rate) := by
    rw [set_frequency_increment, hw1, set_frequency_sampling_rate]
  obtain ⟨oN, hsN, hidxN⟩ :=
    stepN_spec N (set_frequency (set_frequency o g) f)
      ((o.wavetable.length : ℝ) * f / o.sampling_rate) hOK2 hinc2
  rw [hsN, Option.map_some', hidxN, hidx2, hw2, zero_add]

/-- Witness for the C6 theorem at a concrete oscillator: table `[5]`,
sampling rate 1, reset with frequency `0`, then frequency `1` and one
`next_sample` call. -/
theorem oscillator_frequency_phase_witness :
    ((0:ℝ) ≤ 0) ∧ ((0:ℝ) < 1) ∧
    (stepN 1 (set_frequency
        (set_frequency (WavetableOscillator.init [(5:ℝ)] 1 LinearInterpolator) 0) 1)).map
        WavetableOscillator.wavetable_index =
      some (pymod (((1:ℕ) : ℝ) *
        ((((WavetableOscillator.init [(5:ℝ)] 1 LinearInterpolator).wavetable.length) : ℝ) * 1 /
          (WavetableOscillator.init [(5:ℝ)] 1 LinearInterpolator).sampling_rate))
        (((WavetableOscillator.init [(5:ℝ)] 1 LinearInterpolator).wavetable.length) : ℝ)) :=
  ⟨le_refl 0, by norm_num,
    (oscillator_frequency_phase (WavetableOscillator.init [(5:ℝ)] 1 LinearInterpolator) 0 1 1
      rfl (by simp [WavetableOscillator.init]) (by norm_num [WavetableOscillator.init])
      (le_refl 0) (by norm_num)).2.2.2⟩

/-- C7: the phase-index invariant `0 ≤ index < len(table)` holds at
construction (for a nonempty table), is preserved by every frequency
assignment and every successful `next_sample` call, and under it the
interpolating table lookup of `get_sample` succeeds (no out-of-bounds
access). -/
theorem oscillator_index_invariant (table : List ℝ) (sr : ℝ)
    (intp : List ℝ → ℝ → Option ℝ) (o : WavetableOscillator) (f : ℝ)
    (htable : 0 < table.length) (hOK : OscOK o) :
    OscInv (WavetableOscillator.init table sr intp) ∧
    OscInv (set_frequency o f) ∧
    ((get_sample o).elim True (fun p => OscInv p.2)) ∧
    (o.interpolator o.wavetable o.wavetable_index).isSome = true := by
  obtain ⟨hi, h0, h1⟩ := hOK
  have hlen : (0 : ℝ) < o.wavetable.length := lt_of_le_of_lt h0 h1
  refine ⟨?_, (set_frequency_OscOK ⟨hi, h0, h1⟩ f).2, ?_, ?_⟩
  · refine ⟨le_refl 0, ?_⟩
    show (0 : ℝ) < (table.length : ℝ)
    exact_mod_cast htable
  · cases hI : o.interpolator o.wavetable o.wavetable_index with
    | none =>
      have hgs : get_sample o = none := by
        unfold get_sample
        rw [hI]
      rw [hgs]
      trivial
    | some s =>
      cases hInc : o.wavetable_increment with
      | none =>
        have hgs : get_sample o = none := by
          unfold get_sample
          rw [hI, hInc]
        rw [hgs]
        trivial
      | some inc =>
        have hgs : get_sample o = some (s,
            { o with wavetable_index :=
                pymod (o.wavetable_index + inc) (o.wavetable.length : ℝ) }) := by
          unfold get_sample
          rw [hI, hInc]
        rw [hgs]
        exact ⟨pymod_nonneg hlen _, pymod_lt hlen _⟩
  · obtain ⟨r, hr, _⟩ := LinearInterpolator_some h0 h1
    rw [hi, hr]
    rfl

/-- Witness for the C7 theorem: a freshly constructed oscillator on the
table `[1]` and a concrete well-formed oscillator on `[2]` with frequency
assignment `3` and one sample pull. -/
theorem oscillator_index_invariant_witness :
    0 < [(1:ℝ)].length ∧
    (OscInv (WavetableOscillator.init [(1:ℝ)] 2 LinearInterpolator) ∧
     OscInv (set_frequency
       (⟨[(2:ℝ)], 1, LinearInterpolator, 0, 0, some 1⟩ : WavetableOscillator) 3) ∧
     ((get_sample
        (⟨[(2:ℝ)], 1, LinearInterpolator, 0, 0, some 1⟩ : WavetableOscillator)).elim True
          (fun p => OscInv p.2)) ∧
     ((⟨[(2:ℝ)], 1, LinearInterpolator, 0, 0, some 1⟩ : WavetableOscillator).interpolator
        (⟨[(2:ℝ)], 1, LinearInterpolator, 0, 0, some 1⟩ : WavetableOscillator).wavetable
        (⟨[(2:ℝ)], 1, LinearInterpolator, 0, 0, some 1⟩ :
          WavetableOscillator).wavetable_index).isSome = true) :=
  ⟨by simp,
    oscillator_index_invariant [(1:ℝ)] 2 LinearInterpolator
      (⟨[(2:ℝ)], 1, LinearInterpolator, 0, 0, some 1⟩ : WavetableOscillator) 3
      (by simp) ⟨rfl, by norm_num [OscInv]⟩⟩

/-- C10: a `get_sample` call that returns changes only the oscillator's
`wavetable_index`; the wavetable, sampling rate, interpolator, frequency and
increment of the resulting state all equal those of the input state (and
when the call raises, no state at all is produced). -/
theorem get_sample_frame (o : WavetableOscillator) :
    (get_sample o).elim True (fun p =>
      p.2.wavetable = o.wavetable ∧ p.2.sampling_rate = o.sampling_rate ∧
      p.2.interpolator = o.interpolator ∧ p.2.frequency = o.frequency ∧
      p.2.wavetable_increment = o.wavetable_increment) := by
  cases hI : o.interpolator o.wavetable o.wavetable_index with
  | none =>
    have hgs : get_sample o = none := by
      unfold get_sample
      rw [hI]
    rw [hgs]
    trivial
  | some s =>
    cases hInc : o.wavetable_increment with
    | none =>
      have hgs : get_sample o = none := by
        unfold get_sample
        rw [hI, hInc]
      rw [hgs]
      trivial
    | some inc =>
      have hgs : get_sample o = some (s,
          { o with wavetable_index :=
              pymod (o.wavetable_index + inc) (o.wavetable.length : ℝ) }) := by
        unfold get_sample
        rw [hI, hInc]
      rw [hgs]
      exact ⟨rfl, rfl, rfl, rfl, hInc⟩

theorem synthesize_eq_fade (v : Voice) (f d : ℝ)
    (hOK : ∀ o ∈ v.oscillators, OscOK o)
    (hn : 0 ≤ pyInt (d * v.sampling_rate)) :
    ∃ buf : List ℝ, Voice.synthesize v f d =
      fade_in_out (buf.map (fun x => x * ((10:ℝ) ^ (v.gain / 20)))) 1000 ∧
      buf.length = (pyInt (d * v.sampling_rate)).toNat ∧
      ((∀ o ∈ v.oscillators, ∀ y ∈ o.wavetable, |y| ≤ 1) →
        ∀ x ∈ buf, |x| ≤ (v.oscillators.length : ℝ)) := by
  obtain ⟨buf, oscs2, hloop, hlenb, hbnd⟩ :=
    voiceLoop_spec f (pyInt (d * v.sampling_rate)).toNat v.oscillators hOK
  refine ⟨buf, ?_, hlenb, hbnd⟩
  unfold Voice.synthesize
  rw [if_neg (not_lt.mpr hn), hloop]

theorem pyInt_35 : pyInt ((7/4 : ℝ) * 2) = 3 := by
  rw [pyInt_of_nonneg (by norm_num)]
  norm_num

theorem synthesize_no_oscillators_eval :
    Voice.synthesize ⟨2, 0, []⟩ 440 (7/4) = some [0, 0, 0] := by
  simp [Voice.synthesize, pyInt_35, voiceLoop, voiceSampleStep, fade_in_out, linspace]

/-- C2 counterexample: with no oscillators, sampling rate 2 and duration
7/4 the product is 3.5; `np.zeros(int(3.5))` truncates to a 3-sample
buffer, while the claim's `round(3.5) = 4`. -/
theorem synthesize_length_not_round :
    (Voice.synthesize ⟨2, 0, []⟩ 440 (7/4)).map List.length = some 3 ∧
    (round ((7/4 : ℝ) * 2)).toNat = 4 ∧
    (Voice.synthesize ⟨2, 0, []⟩ 440 (7/4)).map List.length ≠
      some ((round ((7/4 : ℝ) * 2)).toNat) := by
  have h4 : (round ((7/4 : ℝ) * 2)).toNat = 4 := by
    have hr : round ((7/4 : ℝ) * 2) = 4 := by
      norm_num [round_eq]
    rw [hr]
    rfl
  refine ⟨?_, h4, ?_⟩
  · rw [synthesize_no_oscillators_eval]
    rfl
  · rw [synthesize_no_oscillators_eval, h4]
    simp

/-- C2, amended: for positive duration, positive sampling rate and a
well-formed oscillator bank, the buffer returned by `Voice.synthesize` has
length exactly `int(duration_seconds * sampling_rate)` — truncation toward
zero, not `round` (they differ whenever the fractional part is at least
one half, see the counterexample); the case `int(d * sr) = 1` is excluded
because there the fade step raises a numpy broadcast error. -/
theorem synthesize_length_floor (v : Voice) (f d : ℝ)
    (hd : 0 < d) (hsr : 0 < v.sampling_rate)
    (hOK : ∀ o ∈ v.oscillators, OscOK o)
    (hn1 : pyInt (d * v.sampling_rate) ≠ 1) :
    (Voice.synthesize v f d).map List.length =
      some (pyInt (d * v.sampling_rate)).toNat := by
  have hds : 0 ≤ d * v.sampling_rate := le_of_lt (mul_pos hd hsr)
  have hn0 : 0 ≤ pyInt (d * v.sampling_rate) := by
    rw [pyInt_of_nonneg hds]
    exact Int.floor_nonneg.mpr hds
  obtain ⟨buf, heq, hlenb, _⟩ := synthesize_eq_fade v f d hOK hn0
  have hL : (buf.map (fun x => x * ((10:ℝ) ^ (v.gain / 20)))).length ≠ 1 := by
    rw [List.length_map, hlenb]
    omega
  obtain ⟨out, hfade, hlenout, _⟩ := fade_in_out_spec _ hL
  rw [heq, hfade, Option.map_some', hlenout, List.length_map, hlenb]

/-- Witness for the amended C2 theorem at the concrete no-oscillator voice
with sampling rate 2 and duration 7/4. -/
theorem synthesize_length_floor_witness :
    ((0:ℝ) < 7/4) ∧
    (Voice.synthesize ⟨2, 0, []⟩ 440 (7/4)).map List.length =
      some (pyInt ((7/4 : ℝ) * (⟨2, 0, []⟩ : Voice).sampling_rate)).toNat :=
  ⟨by norm_num,
    synthesize_length_floor ⟨2, 0, []⟩ 440 (7/4) (by norm_num)
      (show (0:ℝ) < 2 by norm_num)
      (by intro o ho; simp at ho)
      (show pyInt ((7/4 : ℝ) * 2) ≠ 1 by rw [pyInt_35]; decide)⟩

/-- C4 counterexample: `Voice.synthesize` at duration `0` returns normally
with an empty buffer — it raises nothing, in particular no
`InvalidDuration`. -/
theorem synthesize_zero_duration_silent :
    Voice.synthesize ⟨44100, 0, []⟩ 440 0 = some [] ∧
    (some ([] : List ℝ)) ≠ none := by
  constructor
  · have h00 : pyInt (0 : ℝ) = 0 := by
      rw [pyInt_of_nonneg le_rfl]
      norm_num
    simp [Voice.synthesize, h00, voiceLoop, voiceSampleStep, fade_in_out, linspace]
  · simp

/-- C4, amended: `Voice.synthesize` performs no duration validation and has
no `InvalidDuration` condition.  For every non-positive duration (and
nonnegative sampling rate) it either raises the numpy allocation error
"negative dimensions are not allowed" (when `int(d * sr) < 0`, modelled
`none`) or silently returns an empty buffer (when `int(d * sr) = 0`, which
includes every `d` with `-1 < d * sr ≤ 0`). -/
theorem synthesize_nonpositive_duration (v : Voice) (f d : ℝ)
    (hd : d ≤ 0) (hsr : 0 ≤ v.sampling_rate) :
    Voice.synthesize v f d =
      if pyInt (d * v.sampling_rate) < 0 then none else some [] := by
  have hds : d * v.sampling_rate ≤ 0 := by
    have h := mul_le_mul_of_nonneg_right hd hsr
    rwa [zero_mul] at h
  have hpn : pyInt (d * v.sampling_rate) ≤ 0 := pyInt_nonpos hds
  by_cases hneg : pyInt (d * v.sampling_rate) < 0
  · rw [if_pos hneg]
    unfold Voice.synthesize
    rw [if_pos hneg]
  · rw [if_neg hneg]
    have h0 : pyInt (d * v.sampling_rate) = 0 := le_antisymm hpn (not_lt.mp hneg)
    unfold Voice.synthesize
    rw [if_neg hneg, h0]
    simp [Int.toNat_zero, voiceLoop, fade_in_out]

/-- Witness for the amended C4 theorem: duration `-1` at sampling rate
44100. -/
theorem synthesize_nonpositive_duration_witness :
    ((-1 : ℝ) ≤ 0) ∧
    Voice.synthesize ⟨44100, 0, []⟩ 440 (-1) =
      (if pyInt ((-1 : ℝ) * (⟨44100, 0, []⟩ : Voice).sampling_rate) < 0 then none
       else some []) :=
  ⟨by norm_num,
    synthesize_nonpositive_duration ⟨44100, 0, []⟩ 440 (-1) (by norm_num)
      (show (0:ℝ) ≤ 44100 by norm_num)⟩

/-- C9 counterexample: a Voice with gain `20` dB (amplitude `10`) and one
oscillator on the normalized table `[1]` synthesizes, for duration 2 at
sampling rate 1, the buffer `[10, 0]`, whose first sample `10` lies outside
`[-1, 1]`. -/
theorem synthesize_sample_exceeds_one :
    Voice.synthesize ⟨1, 20, [⟨[(1:ℝ)], 1, LinearInterpolator, 0, 0, none⟩]⟩ 1 2 =
      some [10, 0] ∧ ¬ ((10:ℝ) ≤ 1) := by
  constructor
  · have hpy : pyInt (2 : ℝ) = 2 := by
      rw [pyInt_of_nonneg (by norm_num)]
      norm_num
    have hsf : set_frequency
        (⟨[(1:ℝ)], 1, LinearInterpolator, 0, 0, none⟩ : WavetableOscillator) 1 =
        (⟨[(1:ℝ)], 1, LinearInterpolator, 0, 1, some 1⟩ : WavetableOscillator) := by
      unfold set_frequency
      rw [if_neg (by norm_num)]
      simp
    have hsf2 : set_frequency
        (⟨[(1:ℝ)], 1, LinearInterpolator, 0, 1, some 1⟩ : WavetableOscillator) 1 =
        (⟨[(1:ℝ)], 1, LinearInterpolator, 0, 1, some 1⟩ : WavetableOscillator) := by
      unfold set_frequency
      rw [if_neg (by norm_num)]
      simp
    have hI : LinearInterpolator [(1:ℝ)] 0 = some 1 := by
      have h0 : pyInt (0 : ℝ) = 0 := by
        rw [pyInt_of_nonneg le_rfl]
        norm_num
      simp [LinearInterpolator, h0, pyGetElem]
    have hmod : pymod ((0:ℝ) + 1) ([(1:ℝ)].length : ℝ) = 0 := by
      simp [pymod]
    have hgs : get_sample
        (⟨[(1:ℝ)], 1, LinearInterpolator, 0, 1, some 1⟩ : WavetableOscillator) =
        some (1, (⟨[(1:ℝ)], 1, LinearInterpolator, 0, 1, some 1⟩ : WavetableOscillator)) := by
      unfold get_sample
      simp only [hI, hmod]
    have hstep1 : voiceSampleStep 1
        [(⟨[(1:ℝ)], 1, LinearInterpolator, 0, 0, none⟩ : WavetableOscillator)] =
        some (1, [(⟨[(1:ℝ)], 1, LinearInterpolator, 0, 1, some 1⟩ : WavetableOscillator)]) := by
      unfold voiceSampleStep
      rw [hsf, hgs]
      show some ((1:ℝ) + 0,
        [(⟨[(1:ℝ)], 1, LinearInterpolator, 0, 1, some 1⟩ : WavetableOscillator)]) = _
      norm_num
    have hstep2 : voiceSampleStep 1
        [(⟨[(1:ℝ)], 1, LinearInterpolator, 0, 1, some 1⟩ : WavetableOscillator)] =
        some (1, [(⟨[(1:ℝ)], 1, LinearInterpolator, 0, 1, some 1⟩ : WavetableOscillator)]) := by
      unfold voiceSampleStep
      rw [hsf2, hgs]
      show some ((1:ℝ) + 0,
        [(⟨[(1:ℝ)], 1, LinearInterpolator, 0, 1, some 1⟩ : WavetableOscillator)]) = _
      norm_num
    have hloop2 : voiceLoop 1 1
        [(⟨[(1:ℝ)], 1, LinearInterpolator, 0, 1, some 1⟩ : WavetableOscillator)] =
        some ([1], [(⟨[(1:ℝ)], 1, LinearInterpolator, 0, 1, some 1⟩ : WavetableOscillator)]) := by
      show voiceLoop 1 (Nat.succ 0) _ = _
      unfold voiceLoop
      rw [hstep2]
      rfl
    have hloop : voiceLoop 1 2
        [(⟨[(1:ℝ)], 1, LinearInterpolator, 0, 0, none⟩ : WavetableOscillator)] =
        some ([1, 1],
          [(⟨[(1:ℝ)], 1, LinearInterpolator, 0, 1, some 1⟩ : WavetableOscillator)]) := by
      show voiceLoop 1 (Nat.succ 1) _ = _
      unfold voiceLoop
      rw [hstep1]
      show (match voiceLoop 1 1
          [(⟨[(1:ℝ)], 1, LinearInterpolator, 0, 1, some 1⟩ : WavetableOscillator)] with
        | none => none
        | some ros => some ((1:ℝ) :: ros.1, ros.2)) = _
      rw [hloop2]
    have hamp : ((10:ℝ) ^ ((20:ℝ)/20)) = 10 := by
      rw [show ((20:ℝ)/20) = 1 by norm_num, Real.rpow_one]
    simp [Voice.synthesize, hpy, hloop, hamp, fade_in_out, linspace, Real.cos_zero]
  · norm_num

/-- C9, amended: every sample of a buffer returned by `Voice.synthesize`
lies in `[-1, 1]` provided the oscillator bank is well-formed, every
wavetable entry lies in `[-1, 1]`, and `count * 10^(gain/20) ≤ 1` where
`count` is the number of oscillators; without that amplitude bound samples
can exceed 1 (see the counterexample with gain 20). -/
theorem synthesize_samples_bounded (v : Voice) (f d : ℝ) (b : List ℝ) (x : ℝ)
    (hOK : ∀ o ∈ v.oscillators, OscOK o)
    (htb : ∀ o ∈ v.oscillators, ∀ y ∈ o.wavetable, |y| ≤ 1)
    (hga : (v.oscillators.length : ℝ) * ((10:ℝ) ^ (v.gain / 20)) ≤ 1)
    (hsynth : Voice.synthesize v f d = some b) (hx : x ∈ b) :
    -1 ≤ x ∧ x ≤ 1 := by
  by_cases hneg : pyInt (d * v.sampling_rate) < 0
  · have hnone : Voice.synthesize v f d = none := by
      unfold Voice.synthesize
      rw [if_pos hneg]
    rw [hnone] at hsynth
    cases hsynth
  · obtain ⟨buf, heq, hlenb, hbnd⟩ := synthesize_eq_fade v f d hOK (not_lt.mp hneg)
    rw [heq] at hsynth
    have hamp : 0 ≤ ((10:ℝ) ^ (v.gain / 20)) :=
      le_of_lt (Real.rpow_pos_of_pos (by norm_num) _)
    have hbufb : ∀ y ∈ buf.map (fun t => t * ((10:ℝ) ^ (v.gain / 20))), |y| ≤ 1 := by
      intro y hy
      obtain ⟨t, ht, rfl⟩ := List.mem_map.mp hy
      have h1 : |t| ≤ (v.oscillators.length : ℝ) := hbnd htb t ht
      calc |t * ((10:ℝ) ^ (v.gain / 20))|
          = |t| * ((10:ℝ) ^ (v.gain / 20)) := by
            rw [abs_mul, abs_of_nonneg hamp]
        _ ≤ (v.oscillators.length : ℝ) * ((10:ℝ) ^ (v.gain / 20)) :=
            mul_le_mul_of_nonneg_right h1 hamp
        _ ≤ 1 := hga
    rcases eq_or_ne ((buf.map (fun t => t * ((10:ℝ) ^ (v.gain / 20)))).length) 1 with hL | hL
    · have hfn : fade_in_out (buf.map (fun t => t * ((10:ℝ) ^ (v.gain / 20)))) 1000 =
          none := by
        unfold fade_in_out
        rw [hL]
        norm_num
      rw [hfn] at hsynth
      cases hsynth
    · obtain ⟨out, hfade, _, hboundout⟩ := fade_in_out_spec _ hL
      rw [hfade] at hsynth
      have hob : out = b := Option.some.inj hsynth
      rw [← hob] at hx
      exact abs_le.mp (hboundout 1 hbufb x hx)

/-- Witness for the amended C9 theorem: the no-oscillator voice at gain 0
produces the buffer `[0, 0, 0]`, whose sample `0` lies in `[-1, 1]`. -/
theorem synthesize_samples_bounded_witness :
    Voice.synthesize ⟨2, 0, []⟩ 440 (7/4) = some [0, 0, 0] ∧
    ((0:ℝ) ∈ [(0:ℝ), 0, 0]) ∧ (-1 ≤ (0:ℝ) ∧ (0:ℝ) ≤ 1) :=
  ⟨synthesize_no_oscillators_eval, by simp,
    synthesize_samples_bounded ⟨2, 0, []⟩ 440 (7/4) [0, 0, 0] 0
      (by intro o ho; simp at ho) (by intro o ho; simp at ho)
      (by simp) synthesize_no_oscillators_eval (by simp)⟩

/-- C1 (code bug): `fade_in_out` applies the raised-cosine envelope exactly
as generated — rising from `0` to `1` — without reversing it.  On the
constant buffer `[1, 1, 1, 1]` (clamped window `min(1000, 4 // 2) = 2`) the
result is `[1, 1, 0, 1]`: the sample at the start of the fade window is
zeroed and the buffer's final sample is left at full amplitude `1`, so the
output ramps up toward the end instead of monotonically decaying to
near-zero as the claim states (the missing `np.flip`/reversal also
contradicts the source's own `fade_out_envelope` naming). -/
theorem fade_in_out_ramps_up_at_end :
    fade_in_out [(1:ℝ), 1, 1, 1] 1000 = some [1, 1, 0, 1] ∧
    [(1:ℝ), 1, 0, 1].getLast? = some 1 ∧ ¬ ((1:ℝ) ≤ 0) := by
  refine ⟨?_, rfl, by norm_num⟩
  unfold fade_in_out
  norm_num [linspace, List.range_succ, Real.cos_pi, Real.cos_zero]
